import Mathlib

/-!
Verification of the core sync/aggregation logic of a multi-market stock
data pipeline.  The development shallowly embeds:

* the `stock_prices` store with its `INSERT OR REPLACE` upsert keyed by
  `(date, symbol)` (downloader_tw.py, `insert_or_replace` / `init_db`);
* the per-symbol download procedure and the market sync loop
  (downloader_tw.py, `download_one` / `run_sync`; downloader_hk.py and
  downloader_kr.py share the identical loop);
* the listing-fetch fallback paths (downloader_hk.py `get_hk_stock_list`,
  downloader_kr.py `get_kr_stock_list`);
* the analyzer's per-file aggregation and the histogram/bucket report
  (analyzer.py, `run_global_analysis` / `build_company_list`);
* the notification dispatch (notifier.py, `StockNotifier`).

Floats of the source are modelled as rationals; the worker pool is
modelled as a sequential fold over the submitted symbols, which is
faithful for the properties below because every tallied quantity is
order-insensitive (per-symbol results touch disjoint cache files and
disjoint `(date, symbol)` key ranges, and the counters are commutative
sums).
-/

/-- One row of the `stock_prices` table: `date TEXT, symbol TEXT, open REAL,
high REAL, low REAL, close REAL, volume INTEGER, PRIMARY KEY (date, symbol)`
(downloader_tw.py lines 42-45).  `open` is a Lean keyword, hence `openP`. -/
structure PriceBar where
  date : String
  symbol : String
  openP : ℚ
  high : ℚ
  low : ℚ
  close : ℚ
  volume : ℤ
deriving DecidableEq

/-- Key-equality test for the composite primary key `(date, symbol)`. -/
def keyEq (d s : String) (r : PriceBar) : Bool :=
  r.date == d && r.symbol == s

/-- SQLite `INSERT OR REPLACE INTO stock_prices ...` with primary key
`(date, symbol)`: any existing row with the same key is deleted and the
new row inserted (downloader_tw.py lines 33-36). -/
def insert_or_replace (store : List PriceBar) (row : PriceBar) : List PriceBar :=
  row :: store.filter (fun r => !(keyEq row.date row.symbol r))

/-- `conn.executemany` over a batch of rows: upsert each row in order. -/
def upsertMany (store : List PriceBar) (rows : List PriceBar) : List PriceBar :=
  rows.foldl insert_or_replace store

/-- The table invariant guaranteed by the primary key: no two rows share
the composite key `(date, symbol)`. -/
def keyUnique (store : List PriceBar) : Prop :=
  (store.map (fun r => (r.date, r.symbol))).Nodup

instance (store : List PriceBar) : Decidable (keyUnique store) := by
  unfold keyUnique; infer_instance

theorem keyEq_iff {d s : String} {r : PriceBar} :
    keyEq d s r = true ↔ r.date = d ∧ r.symbol = s := by
  simp [keyEq]

theorem filter_key_insert_or_replace_self (store : List PriceBar) (row : PriceBar)
    (d s : String) (hd : row.date = d) (hs : row.symbol = s) :
    (insert_or_replace store row).filter (keyEq d s) = [row] := by
  subst hd; subst hs
  have hrow : keyEq row.date row.symbol row = true := by simp [keyEq]
  have hnil : (store.filter (fun r => !(keyEq row.date row.symbol r))).filter
      (keyEq row.date row.symbol) = [] := by
    apply List.filter_eq_nil_iff.mpr
    intro a ha
    have hmem := List.of_mem_filter ha
    simp only [Bool.not_eq_true'] at hmem
    simp [hmem]
  simp [insert_or_replace, List.filter_cons, hrow, hnil]

theorem filter_key_insert_or_replace_other (store : List PriceBar) (row : PriceBar)
    (d s : String) (h : ¬(row.date = d ∧ row.symbol = s)) :
    (insert_or_replace store row).filter (keyEq d s) = store.filter (keyEq d s) := by
  simp only [insert_or_replace, List.filter_cons]
  rw [if_neg (by simp [keyEq_iff, h])]
  rw [List.filter_filter]
  congr 1
  funext r
  cases hk : keyEq d s r
  · simp
  · have hr := keyEq_iff.mp hk
    have : keyEq row.date row.symbol r = false := by
      cases hq : keyEq row.date row.symbol r
      · rfl
      · exact absurd ⟨(keyEq_iff.mp hq).1.symm.trans hr.1,
          (keyEq_iff.mp hq).2.symm.trans hr.2⟩ h
    simp [this]

theorem keyUnique_insert_or_replace {store : List PriceBar} (row : PriceBar)
    (h : keyUnique store) : keyUnique (insert_or_replace store row) := by
  unfold keyUnique insert_or_replace
  simp only [List.map_cons, List.nodup_cons]
  constructor
  · intro hmem
    rcases List.mem_map.mp hmem with ⟨r, hr, hkeyp⟩
    have hfil := List.of_mem_filter hr
    have h1 : r.date = row.date := congrArg Prod.fst hkeyp
    have h2 : r.symbol = row.symbol := congrArg Prod.snd hkeyp
    simp [keyEq_iff.mpr ⟨h1, h2⟩] at hfil
  · exact h.sublist (List.Sublist.map _ (List.filter_sublist store))

theorem keyUnique_upsertMany {store : List PriceBar} (rows : List PriceBar)
    (h : keyUnique store) : keyUnique (upsertMany store rows) := by
  induction rows generalizing store with
  | nil => exact h
  | cons r rest ih => exact ih (keyUnique_insert_or_replace r h)

theorem filter_key_upsertMany (store : List PriceBar) (rows : List PriceBar)
    (d s : String) (hne : rows ≠ [])
    (hkey : ∀ r ∈ rows, r.date = d ∧ r.symbol = s) :
    (upsertMany store rows).filter (keyEq d s) = [rows.getLast hne] := by
  induction rows generalizing store with
  | nil => exact absurd rfl hne
  | cons r rest ih =>
    cases rest with
    | nil =>
      have hk := hkey r (by simp)
      simpa [upsertMany] using
        filter_key_insert_or_replace_self store r d s hk.1 hk.2
    | cons r2 rest2 =>
      have hne2 : r2 :: rest2 ≠ [] := by simp
      have hstep : upsertMany store (r :: r2 :: rest2)
          = upsertMany (insert_or_replace store r) (r2 :: rest2) := rfl
      rw [hstep, ih (insert_or_replace store r) hne2
        (fun x hx => hkey x (List.mem_cons_of_mem r hx))]
      simp [List.getLast_cons]

/-- C1: writes with the same `(date, symbol)` key overwrite in place.
After any sequence of upserts of rows all carrying that key, the
`stock_prices` store holds exactly one row for the key, namely the last
row written, and upserting never creates duplicate keys in the table. -/
theorem upsert_same_key_overwrites (store : List PriceBar) (rows : List PriceBar)
    (d s : String) (hne : rows ≠ [])
    (hkey : ∀ r ∈ rows, r.date = d ∧ r.symbol = s)
    (hu : keyUnique store) :
    (upsertMany store rows).filter (keyEq d s) = [rows.getLast hne] ∧
      keyUnique (upsertMany store rows) :=
  ⟨filter_key_upsertMany store rows d s hne hkey, keyUnique_upsertMany rows hu⟩

/-- A concrete bar used by the witnesses below. -/
def sampleBar (c : ℚ) : PriceBar :=
  ⟨"2024-01-02", "2330.TW", 100, 110, 95, c, 1000⟩

/-- Witness for C1: upserting three bars with the key
`("2024-01-02", "2330.TW")` into a one-row store leaves exactly the last
bar under that key. -/
theorem upsert_same_key_overwrites_witness :
    (upsertMany [sampleBar 1] [sampleBar 2, sampleBar 3, sampleBar 4]).filter
        (keyEq "2024-01-02" "2330.TW") = [sampleBar 4] ∧
      keyUnique (upsertMany [sampleBar 1] [sampleBar 2, sampleBar 3, sampleBar 4]) :=
  upsert_same_key_overwrites [sampleBar 1] [sampleBar 2, sampleBar 3, sampleBar 4]
    "2024-01-02" "2330.TW" (by decide) (by decide) (by decide)

/-- Raw bars returned by the quote provider before the `symbol` column is
attached (`tk.history(...)` after normalization in `download_one`). -/
structure RawBar where
  date : String
  openP : ℚ
  high : ℚ
  low : ℚ
  close : ℚ
  volume : ℤ
deriving DecidableEq

/-- `df_final['symbol'] = symbol` — attach the symbol column to a raw bar. -/
def toPriceBar (symbol : String) (b : RawBar) : PriceBar :=
  ⟨b.date, symbol, b.openP, b.high, b.low, b.close, b.volume⟩

/-- Result tag of one `download_one` call (downloader_tw.py lines 96-138). -/
inductive Status where
  | cache
  | success
  | empty
  | error
deriving DecidableEq

/-- A provider response: an exception during the request, or a (possibly
empty) normalized history. -/
def Provider : Type :=
  String → Except Unit (List RawBar)

/-- Execution-environment switch (`IS_GITHUB_ACTIONS`). -/
structure SyncEnv where
  isGithubActions : Bool
deriving DecidableEq

/-- Observable state touched by a sync run: the `stock_prices` rows and
the set of symbols whose cache file exists and is fresh (age below
`DATA_EXPIRY_SECONDS`; both runs of the idempotence scenario are assumed
to fall inside one expiry window). -/
structure SyncState where
  store : List PriceBar
  cacheFresh : List String
deriving DecidableEq

/-- The per-symbol worker `download_one` (downloader_tw.py lines 96-138):
cache short-circuit outside GitHub Actions, then fetch; an empty frame
tags `empty`, an exception tags `error`, otherwise the rows are upserted
into `stock_prices`, the cache file written, and the call tags `success`. -/
def download_one (env : SyncEnv) (provider : Provider) (st : SyncState)
    (symbol : String) : Status × SyncState :=
  if !env.isGithubActions && st.cacheFresh.contains symbol then
    (Status.cache, st)
  else
    match provider symbol with
    | Except.error _ => (Status.error, st)
    | Except.ok bars =>
      if bars.isEmpty then (Status.empty, st)
      else
        (Status.success,
          { store := upsertMany st.store (bars.map (toPriceBar symbol)),
            cacheFresh :=
              if env.isGithubActions then st.cacheFresh else symbol :: st.cacheFresh })

/-- The four run-level counters of `run_sync` (`stats` dict). -/
structure Stats where
  success : ℕ
  cache : ℕ
  empty : ℕ
  error : ℕ
deriving DecidableEq

/-- `stats[s] += 1` for a completed future. -/
def bump (stats : Stats) : Status → Stats
  | Status.cache => { stats with cache := stats.cache + 1 }
  | Status.success => { stats with success := stats.success + 1 }
  | Status.empty => { stats with empty := stats.empty + 1 }
  | Status.error => { stats with error := stats.error + 1 }

def sumStats (stats : Stats) : ℕ :=
  stats.success + stats.cache + stats.empty + stats.error

/-- The `as_completed` tally loop of `run_sync` (downloader_tw.py lines
157-167), sequentialized: each completed symbol bumps its status counter
and `error` results append the symbol to `fail_list`. -/
def runSyncLoop (env : SyncEnv) (provider : Provider) :
    List (String × String) → SyncState → Stats → List String →
      Stats × List String × SyncState
  | [], st, stats, fails => (stats, fails, st)
  | (symbol, _name) :: rest, st, stats, fails =>
    let res := download_one env provider st symbol
    let fails2 := if res.1 = Status.error then fails ++ [symbol] else fails
    runSyncLoop env provider rest res.2 (bump stats res.1) fails2

/-- The dict returned by `run_sync` (downloader_tw.py lines 185-189). -/
structure SyncResult where
  success : ℕ
  fail_list : List String
  has_changed : Bool
deriving DecidableEq

/-- `run_sync` (downloader_tw.py lines 142-189, identical loop in
downloader_hk.py and downloader_kr.py): abort on an empty listing, run
the worker loop, and report `success + cache`, the failure list, and
`has_changed = stats['success'] > 0`.  The VACUUM branch does not touch
table rows and is not modelled. -/
def run_sync (env : SyncEnv) (provider : Provider) (items : List (String × String))
    (st0 : SyncState) : SyncResult × SyncState :=
  if items.isEmpty then
    ({ success := 0, fail_list := [], has_changed := false }, st0)
  else
    let out := runSyncLoop env provider items st0 ⟨0, 0, 0, 0⟩ []
    ({ success := out.1.success + out.1.cache,
       fail_list := out.2.1,
       has_changed := decide (0 < out.1.success) }, out.2.2)

theorem sumStats_bump (stats : Stats) (s : Status) :
    sumStats (bump stats s) = sumStats stats + 1 := by
  cases s <;> simp [bump, sumStats] <;> omega

theorem runSyncLoop_sumStats (env : SyncEnv) (provider : Provider)
    (items : List (String × String)) (st : SyncState) (stats : Stats)
    (fails : List String) :
    sumStats (runSyncLoop env provider items st stats fails).1
      = sumStats stats + items.length := by
  induction items generalizing st stats fails with
  | nil => simp [runSyncLoop]
  | cons it rest ih =>
    obtain ⟨symbol, name⟩ := it
    simp only [runSyncLoop, ih, sumStats_bump, List.length_cons]
    omega

/-- C10: the per-symbol download is total at the worker boundary — in the
embedding `download_one` is a total function into the four-constructor
`Status` type (the source wraps the whole network/store section in a
`try/except` returning the `error` tag) — and therefore the four status
counters accumulated by the sync loop sum to the number of submitted
symbols. -/
theorem statuses_partition_symbols (env : SyncEnv) (provider : Provider)
    (items : List (String × String)) (st : SyncState) :
    sumStats (runSyncLoop env provider items st ⟨0, 0, 0, 0⟩ []).1 = items.length := by
  simpa [sumStats] using
    runSyncLoop_sumStats env provider items st ⟨0, 0, 0, 0⟩ []

theorem provider_error_of_download_error (env : SyncEnv) (provider : Provider)
    (st : SyncState) (symbol : String)
    (h : (download_one env provider st symbol).1 = Status.error) :
    provider symbol = Except.error () := by
  unfold download_one at h
  by_cases hc : (!env.isGithubActions && st.cacheFresh.contains symbol) = true
  · rw [if_pos hc] at h
    exact absurd h (by simp)
  · rw [if_neg hc] at h
    cases hp : provider symbol with
    | error e =>
      cases e
      rfl
    | ok bars =>
      rw [hp] at h
      by_cases hb : bars.isEmpty = true
      · simp [hb] at h
      · simp [hb] at h

theorem mem_runSyncLoop_fails (env : SyncEnv) (provider : Provider)
    (items : List (String × String)) (st : SyncState) (stats : Stats)
    (fails : List String) (x : String)
    (hx : x ∈ (runSyncLoop env provider items st stats fails).2.1) :
    x ∈ fails ∨ provider x = Except.error () := by
  induction items generalizing st stats fails with
  | nil => exact Or.inl hx
  | cons it rest ih =>
    obtain ⟨symbol, name⟩ := it
    simp only [runSyncLoop] at hx
    by_cases he : (download_one env provider st symbol).1 = Status.error
    · rw [if_pos he] at hx
      rcases ih _ _ _ hx with hin | hp
      · rcases List.mem_append.mp hin with hin2 | hin2
        · exact Or.inl hin2
        · have hxs : x = symbol := List.mem_singleton.mp hin2
          exact Or.inr (hxs ▸ provider_error_of_download_error env provider st symbol he)
      · exact Or.inr hp
    · rw [if_neg he] at hx
      exact ih _ _ _ hx

/-- C5 (amended): a symbol whose provider call returns no data is tagged
`empty`, but it is NOT added to the run's failure list — `run_sync`
appends to `fail_list` only for symbols tagged `error` (downloader_tw.py
lines 165-166), so the returned failure list never contains an
empty-tagged symbol. -/
theorem empty_tagged_not_in_fail_list (env : SyncEnv) (provider : Provider)
    (items : List (String × String)) (st0 st : SyncState) (sym name : String)
    (hmem : (sym, name) ∈ items)
    (hprov : provider sym = Except.ok [])
    (hc : env.isGithubActions = true ∨ sym ∉ st.cacheFresh) :
    (download_one env provider st sym).1 = Status.empty ∧
      sym ∉ (run_sync env provider items st0).1.fail_list := by
  constructor
  · unfold download_one
    have hcond : (!env.isGithubActions && st.cacheFresh.contains sym) = false := by
      rcases hc with h1 | h1
      · simp [h1]
      · simp [h1]
    rw [if_neg (by rw [hcond]; simp), hprov]
    rfl
  · intro hin
    have hne : items.isEmpty = false := by
      cases items with
      | nil => cases hmem
      | cons a b => rfl
    unfold run_sync at hin
    rw [if_neg (by simp [hne])] at hin
    rcases mem_runSyncLoop_fails env provider items st0 ⟨0, 0, 0, 0⟩ [] sym hin with h | h
    · cases h
    · rw [hprov] at h
      cases h

/-- Witness for C5 (amended) at a one-symbol listing whose provider
returns an empty frame. -/
theorem empty_tagged_not_in_fail_list_witness :
    (download_one ⟨true⟩ (fun _ => Except.ok []) ⟨[], []⟩ "E").1 = Status.empty ∧
      "E" ∉ (run_sync ⟨true⟩ (fun _ => Except.ok []) [("E", "E")] ⟨[], []⟩).1.fail_list :=
  empty_tagged_not_in_fail_list ⟨true⟩ (fun _ => Except.ok []) [("E", "E")]
    ⟨[], []⟩ ⟨[], []⟩ "E" "E" (by simp) rfl (Or.inl rfl)

/-- C5 counterexample: with the single symbol "C" whose provider call
returns no data, the sync tags "C" `empty` yet returns an empty failure
list, so "C" does not appear in it as the claim asserts. -/
theorem empty_symbol_absent_from_fail_list :
    (download_one ⟨true⟩ (fun _ => Except.ok []) ⟨[], []⟩ "C").1 = Status.empty ∧
      (run_sync ⟨true⟩ (fun _ => Except.ok []) [("C", "C")] ⟨[], []⟩).1.fail_list = [] := by
  exact ⟨rfl, rfl⟩

/-- A row with key `(d, s)` is present in the store. -/
def hasKey (store : List PriceBar) (d s : String) : Bool :=
  store.any (keyEq d s)

theorem filter_key_length_eq_one (store : List PriceBar) (d s : String)
    (hu : keyUnique store) (hk : hasKey store d s = true) :
    (store.filter (keyEq d s)).length = 1 := by
  induction store with
  | nil => simp [hasKey] at hk
  | cons x rest ih =>
    have hu2 := List.nodup_cons.mp hu
    by_cases hx : keyEq d s x = true
    · have hnone : rest.filter (keyEq d s) = [] := by
        apply List.filter_eq_nil_iff.mpr
        intro a ha hka
        apply hu2.1
        have h1 := keyEq_iff.mp hx
        have h2 := keyEq_iff.mp hka
        have hx2 : (x.date, x.symbol) = (a.date, a.symbol) := by
          rw [h1.1, h1.2, h2.1, h2.2]
        have hmm : (x.date, x.symbol) ∈ List.map (fun r => (r.date, r.symbol)) rest := by
          rw [hx2]
          exact List.mem_map.mpr ⟨a, ha, rfl⟩
        exact hmm
      simp [List.filter_cons, hx, hnone]
    · have hk2 : hasKey rest d s = true := by
        rcases List.any_eq_true.mp hk with ⟨a, ha, hka⟩
        rcases List.mem_cons.mp ha with rfl | ha2
        · exact absurd hka hx
        · exact List.any_eq_true.mpr ⟨a, ha2, hka⟩
      simp only [List.filter_cons, hx]
      rw [if_neg (by simp [hx])]
      exact ih hu2.2 hk2

theorem length_insert_or_replace_of_hasKey (store : List PriceBar) (row : PriceBar)
    (hu : keyUnique store) (hk : hasKey store row.date row.symbol = true) :
    (insert_or_replace store row).length = store.length := by
  have h1 := List.length_eq_length_filter_add (l := store) (keyEq row.date row.symbol)
  have h2 := filter_key_length_eq_one store row.date row.symbol hu hk
  simp only [insert_or_replace, List.length_cons]
  omega

theorem hasKey_insert_or_replace_self (store : List PriceBar) (row : PriceBar) :
    hasKey (insert_or_replace store row) row.date row.symbol = true := by
  simp [hasKey, insert_or_replace, keyEq]

theorem hasKey_insert_or_replace_mono (store : List PriceBar) (row : PriceBar)
    (d s : String) (h : hasKey store d s = true) :
    hasKey (insert_or_replace store row) d s = true := by
  rcases List.any_eq_true.mp h with ⟨a, ha, hka⟩
  by_cases hsame : keyEq row.date row.symbol a = true
  · have h1 := keyEq_iff.mp hka
    have h2 := keyEq_iff.mp hsame
    exact List.any_eq_true.mpr ⟨row, by simp [insert_or_replace],
      keyEq_iff.mpr ⟨h2.1.symm.trans h1.1, h2.2.symm.trans h1.2⟩⟩
  · refine List.any_eq_true.mpr ⟨a, ?_, hka⟩
    simp only [insert_or_replace, List.mem_cons]
    exact Or.inr (List.mem_filter.mpr ⟨ha, by simp [hsame]⟩)

theorem hasKey_upsertMany_mono (store : List PriceBar) (rows : List PriceBar)
    (d s : String) (h : hasKey store d s = true) :
    hasKey (upsertMany store rows) d s = true := by
  induction rows generalizing store with
  | nil => exact h
  | cons r rest ih => exact ih _ (hasKey_insert_or_replace_mono store r d s h)

theorem hasKey_upsertMany_of_mem (store : List PriceBar) (rows : List PriceBar)
    (r : PriceBar) (hr : r ∈ rows) :
    hasKey (upsertMany store rows) r.date r.symbol = true := by
  induction rows generalizing store with
  | nil => cases hr
  | cons x rest ih =>
    rcases List.mem_cons.mp hr with rfl | hr2
    · exact hasKey_upsertMany_mono _ rest _ _ (hasKey_insert_or_replace_self store r)
    · exact ih (insert_or_replace store x) hr2

theorem length_upsertMany_of_hasKey (store : List PriceBar) (rows : List PriceBar)
    (hu : keyUnique store)
    (hall : ∀ r ∈ rows, hasKey store r.date r.symbol = true) :
    (upsertMany store rows).length = store.length := by
  induction rows generalizing store with
  | nil => rfl
  | cons x rest ih =>
    have hx := hall x (by simp)
    have hlen := length_insert_or_replace_of_hasKey store x hu hx
    have hu2 := keyUnique_insert_or_replace x hu
    have hall2 : ∀ r ∈ rest, hasKey (insert_or_replace store x) r.date r.symbol = true :=
      fun r hr => hasKey_insert_or_replace_mono store x _ _ (hall r (by simp [hr]))
    calc (upsertMany store (x :: rest)).length
        = (upsertMany (insert_or_replace store x) rest).length := rfl
      _ = (insert_or_replace store x).length := ih _ hu2 hall2
      _ = store.length := hlen

/-- A provider response that writes nothing: an exception or an empty
frame. -/
def fetchBad (provider : Provider) (symbol : String) : Prop :=
  provider symbol = Except.error () ∨ provider symbol = Except.ok []

theorem download_one_state (env : SyncEnv) (provider : Provider) (st : SyncState)
    (symbol : String) :
    (download_one env provider st symbol).2 = st ∨
      ∃ bars, provider symbol = Except.ok bars ∧ bars ≠ [] ∧
        (download_one env provider st symbol).2 =
          ⟨upsertMany st.store (bars.map (toPriceBar symbol)),
            if env.isGithubActions then st.cacheFresh else symbol :: st.cacheFresh⟩ := by
  by_cases hcond : (!env.isGithubActions && st.cacheFresh.contains symbol) = true
  · have hc2 : env.isGithubActions = false ∧ symbol ∈ st.cacheFresh := by
      simpa using hcond
    left
    simp [download_one, hc2.1, hc2.2]
  · have hc2 : ¬(env.isGithubActions = false ∧ symbol ∈ st.cacheFresh) := by
      intro hx
      exact hcond (by simp [hx.1, hx.2])
    cases hp : provider symbol with
    | error e =>
      left
      simp [download_one, hp, hc2]
    | ok bars =>
      by_cases hb : bars.isEmpty = true
      · left
        simp [download_one, hp, hb, hc2]
      · right
        refine ⟨bars, rfl, by simpa using hb, ?_⟩
        simp [download_one, hp, hb, hc2]

theorem download_one_stable (env : SyncEnv) (provider : Provider) (st : SyncState)
    (symbol : String)
    (h : (env.isGithubActions = false ∧ symbol ∈ st.cacheFresh) ∨ fetchBad provider symbol) :
    (download_one env provider st symbol).2 = st ∧
      (download_one env provider st symbol).1 ≠ Status.success := by
  unfold download_one
  by_cases hcond : (!env.isGithubActions && st.cacheFresh.contains symbol) = true
  · rw [if_pos hcond]
    exact ⟨rfl, by simp⟩
  · rw [if_neg hcond]
    rcases h with ⟨hgh, hc⟩ | hbad
    · exact absurd (by simp [hgh, hc]) hcond
    · rcases hbad with he | hok
      · rw [he]
        exact ⟨rfl, by simp⟩
      · rw [hok]
        exact ⟨rfl, by simp⟩

theorem download_one_success_state (env : SyncEnv) (provider : Provider) (st : SyncState)
    (symbol : String) (bars : List RawBar)
    (hok : provider symbol = Except.ok bars) (hne : bars ≠ [])
    (hnc : (!env.isGithubActions && st.cacheFresh.contains symbol) = false) :
    download_one env provider st symbol =
      (Status.success,
        ⟨upsertMany st.store (bars.map (toPriceBar symbol)),
          if env.isGithubActions then st.cacheFresh else symbol :: st.cacheFresh⟩) := by
  have hb : bars.isEmpty = false := by
    cases bars with
    | nil => exact absurd rfl hne
    | cons b bs => rfl
  unfold download_one
  rw [if_neg (by rw [hnc]; simp), hok]
  simp [hb]

theorem download_one_cache_mono (env : SyncEnv) (provider : Provider) (st : SyncState)
    (symbol x : String) (h : x ∈ st.cacheFresh) :
    x ∈ (download_one env provider st symbol).2.cacheFresh := by
  rcases download_one_state env provider st symbol with hst | ⟨bars, _, _, hst⟩
  · rw [hst]
    exact h
  · rw [hst]
    by_cases hgh : env.isGithubActions = true
    · simpa [hgh] using h
    · simp only [Bool.not_eq_true] at hgh
      simp [hgh]
      exact Or.inr h

theorem download_one_store_hasKey_mono (env : SyncEnv) (provider : Provider)
    (st : SyncState) (symbol d s : String) (h : hasKey st.store d s = true) :
    hasKey (download_one env provider st symbol).2.store d s = true := by
  rcases download_one_state env provider st symbol with hst | ⟨bars, _, _, hst⟩
  · rw [hst]
    exact h
  · rw [hst]
    exact hasKey_upsertMany_mono _ _ _ _ h

theorem download_one_keyUnique (env : SyncEnv) (provider : Provider)
    (st : SyncState) (symbol : String) (hu : keyUnique st.store) :
    keyUnique (download_one env provider st symbol).2.store := by
  rcases download_one_state env provider st symbol with hst | ⟨bars, _, _, hst⟩
  · rw [hst]
    exact hu
  · rw [hst]
    exact keyUnique_upsertMany _ hu

theorem runSyncLoop_cache_mono (env : SyncEnv) (provider : Provider)
    (items : List (String × String)) (st : SyncState) (stats : Stats)
    (fails : List String) (x : String) (h : x ∈ st.cacheFresh) :
    x ∈ (runSyncLoop env provider items st stats fails).2.2.cacheFresh := by
  induction items generalizing st stats fails with
  | nil => exact h
  | cons it rest ih =>
    obtain ⟨symbol, name⟩ := it
    exact ih _ _ _ (download_one_cache_mono env provider st symbol x h)

theorem runSyncLoop_store_hasKey_mono (env : SyncEnv) (provider : Provider)
    (items : List (String × String)) (st : SyncState) (stats : Stats)
    (fails : List String) (d s : String) (h : hasKey st.store d s = true) :
    hasKey (runSyncLoop env provider items st stats fails).2.2.store d s = true := by
  induction items generalizing st stats fails with
  | nil => exact h
  | cons it rest ih =>
    obtain ⟨symbol, name⟩ := it
    exact ih _ _ _ (download_one_store_hasKey_mono env provider st symbol d s h)

theorem runSyncLoop_keyUnique (env : SyncEnv) (provider : Provider)
    (items : List (String × String)) (st : SyncState) (stats : Stats)
    (fails : List String) (hu : keyUnique st.store) :
    keyUnique (runSyncLoop env provider items st stats fails).2.2.store := by
  induction items generalizing st stats fails with
  | nil => exact hu
  | cons it rest ih =>
    obtain ⟨symbol, name⟩ := it
    exact ih _ _ _ (download_one_keyUnique env provider st symbol hu)

theorem bump_success_of_ne (stats : Stats) (s : Status) (h : s ≠ Status.success) :
    (bump stats s).success = stats.success := by
  cases s with
  | success => exact absurd rfl h
  | cache => rfl
  | empty => rfl
  | error => rfl

theorem runSyncLoop_local_coverage (env : SyncEnv) (provider : Provider)
    (items : List (String × String)) (st : SyncState) (stats : Stats)
    (fails : List String) (hgh : env.isGithubActions = false) :
    ∀ p ∈ items,
      p.1 ∈ (runSyncLoop env provider items st stats fails).2.2.cacheFresh ∨
        fetchBad provider p.1 := by
  induction items generalizing st stats fails with
  | nil => intro p hp; cases hp
  | cons it rest ih =>
    obtain ⟨symbol, name⟩ := it
    intro p hp
    rcases List.mem_cons.mp hp with rfl | hp2
    · by_cases hcond : (!env.isGithubActions && st.cacheFresh.contains symbol) = true
      · have hc2 : symbol ∈ st.cacheFresh := by
          rw [hgh] at hcond
          simpa using hcond
        left
        exact runSyncLoop_cache_mono env provider rest _ _ _ _
          (download_one_cache_mono env provider st symbol symbol hc2)
      · cases hp2 : provider symbol with
        | error e =>
          right
          cases e
          exact Or.inl hp2
        | ok bars =>
          cases bars with
          | nil =>
            right
            exact Or.inr hp2
          | cons b bs =>
            left
            have hdl := download_one_success_state env provider st symbol (b :: bs)
              hp2 (by simp) (by simpa using hcond)
            have hmem2 : symbol ∈ (download_one env provider st symbol).2.cacheFresh := by
              rw [hdl]
              simp [hgh]
            exact runSyncLoop_cache_mono env provider rest _ _ _ _ hmem2
    · exact ih _ _ _ p hp2

theorem runSyncLoop_local_noop (env : SyncEnv) (provider : Provider)
    (items : List (String × String)) (st : SyncState) (stats : Stats)
    (fails : List String) (hgh : env.isGithubActions = false)
    (hstable : ∀ p ∈ items, p.1 ∈ st.cacheFresh ∨ fetchBad provider p.1) :
    (runSyncLoop env provider items st stats fails).2.2 = st ∧
      (runSyncLoop env provider items st stats fails).1.success = stats.success := by
  induction items generalizing stats fails with
  | nil => exact ⟨rfl, rfl⟩
  | cons it rest ih =>
    obtain ⟨symbol, name⟩ := it
    have hstep := download_one_stable env provider st symbol
      (by
        rcases hstable (symbol, name) (by simp) with h | h
        · exact Or.inl ⟨hgh, h⟩
        · exact Or.inr h)
    have hrest : ∀ p ∈ rest, p.1 ∈ st.cacheFresh ∨ fetchBad provider p.1 :=
      fun p hp => hstable p (List.mem_cons_of_mem _ hp)
    simp only [runSyncLoop, hstep.1]
    have hih := ih (bump stats (download_one env provider st symbol).1)
      (if (download_one env provider st symbol).1 = Status.error
        then fails ++ [symbol] else fails) hrest
    exact ⟨hih.1, hih.2.trans (bump_success_of_ne stats _ hstep.2)⟩

theorem runSyncLoop_gh_coverage (env : SyncEnv) (provider : Provider)
    (items : List (String × String)) (st : SyncState) (stats : Stats)
    (fails : List String) (hgh : env.isGithubActions = true) :
    ∀ p ∈ items, ∀ bars, provider p.1 = Except.ok bars → bars ≠ [] →
      ∀ b ∈ bars,
        hasKey (runSyncLoop env provider items st stats fails).2.2.store b.date p.1 = true := by
  induction items generalizing st stats fails with
  | nil => intro p hp; cases hp
  | cons it rest ih =>
    obtain ⟨symbol, name⟩ := it
    intro p hp bars hok hne b hb
    rcases List.mem_cons.mp hp with rfl | hp2
    · have hdl := download_one_success_state env provider st symbol bars hok hne
        (by simp [hgh])
      have hk2 : hasKey (download_one env provider st symbol).2.store b.date symbol = true := by
        rw [hdl]
        exact hasKey_upsertMany_of_mem _ _ (toPriceBar symbol b) (List.mem_map_of_mem _ hb)
      exact runSyncLoop_store_hasKey_mono env provider rest _ _ _ _ _ hk2
    · exact ih _ _ _ p hp2 bars hok hne b hb

theorem runSyncLoop_gh_preserves_length (env : SyncEnv) (provider : Provider)
    (items : List (String × String)) (st : SyncState) (stats : Stats)
    (fails : List String) (hgh : env.isGithubActions = true)
    (hu : keyUnique st.store)
    (hcov : ∀ p ∈ items, ∀ bars, provider p.1 = Except.ok bars → bars ≠ [] →
      ∀ b ∈ bars, hasKey st.store b.date p.1 = true) :
    (runSyncLoop env provider items st stats fails).2.2.store.length
      = st.store.length := by
  induction items generalizing st stats fails with
  | nil => rfl
  | cons it rest ih =>
    obtain ⟨symbol, name⟩ := it
    have hcovrest0 : ∀ p ∈ rest, ∀ bars, provider p.1 = Except.ok bars → bars ≠ [] →
        ∀ b ∈ bars, hasKey st.store b.date p.1 = true :=
      fun p hp => hcov p (List.mem_cons_of_mem _ hp)
    cases hp : provider symbol with
    | error e =>
      have hstep := download_one_stable env provider st symbol
        (Or.inr (Or.inl (by cases e; exact hp)))
      simp only [runSyncLoop, hstep.1]
      exact ih _ _ _ hu hcovrest0
    | ok bars =>
      cases bars with
      | nil =>
        have hstep := download_one_stable env provider st symbol (Or.inr (Or.inr hp))
        simp only [runSyncLoop, hstep.1]
        exact ih _ _ _ hu hcovrest0
      | cons b bs =>
        have hdl := download_one_success_state env provider st symbol (b :: bs)
          hp (by simp) (by simp [hgh])
        have hkeys : ∀ r ∈ (b :: bs).map (toPriceBar symbol),
            hasKey st.store r.date r.symbol = true := by
          intro r hr
          rcases List.mem_map.mp hr with ⟨b2, hb2, rfl⟩
          exact hcov (symbol, name) (by simp) (b :: bs) hp (by simp) b2 hb2
        have hlen : (upsertMany st.store ((b :: bs).map (toPriceBar symbol))).length
            = st.store.length :=
          length_upsertMany_of_hasKey _ _ hu hkeys
        have hu2 : keyUnique (upsertMany st.store ((b :: bs).map (toPriceBar symbol))) :=
          keyUnique_upsertMany _ hu
        simp only [runSyncLoop, hdl]
        have hcovrest : ∀ p ∈ rest, ∀ bars2, provider p.1 = Except.ok bars2 → bars2 ≠ [] →
            ∀ b2 ∈ bars2,
              hasKey (upsertMany st.store ((b :: bs).map (toPriceBar symbol))) b2.date p.1
                = true := by
          intro p hpm bars2 hok2 hne2 b2 hb2
          exact hasKey_upsertMany_mono _ _ _ _ (hcovrest0 p hpm bars2 hok2 hne2 b2 hb2)
        have := ih ⟨upsertMany st.store ((b :: bs).map (toPriceBar symbol)),
          if env.isGithubActions then st.cacheFresh else symbol :: st.cacheFresh⟩
          (bump stats Status.success)
          (if Status.success = Status.error then fails ++ [symbol] else fails)
          hu2 hcovrest
        exact this.trans hlen

/-- Row count of the `stock_prices` table (`SELECT COUNT(*)`). -/
def totalRows (st : SyncState) : ℕ :=
  st.store.length

/-- C2 (amended): running the sync twice in succession over the same day
with unchanged upstream data leaves `total_rows` unchanged on the second
run in every environment; the second run reports `has_changed = false`
when local caching is enabled (outside GitHub Actions).  In the cloud
environment the cache short-circuit is disabled, so unchanged upstream
data is re-downloaded and re-tagged `success`, making `has_changed` true
again — only the row count, not the flag, is idempotent there. -/
theorem sync_rerun_idempotent (env : SyncEnv) (provider : Provider)
    (items : List (String × String)) (st0 : SyncState)
    (hu : keyUnique st0.store) :
    totalRows (run_sync env provider items ((run_sync env provider items st0).2)).2
        = totalRows ((run_sync env provider items st0).2) ∧
      (env.isGithubActions = false →
        (run_sync env provider items
          ((run_sync env provider items st0).2)).1.has_changed = false) := by
  cases items with
  | nil => exact ⟨rfl, fun _ => rfl⟩
  | cons it rest =>
    have hform2 : (run_sync env provider (it :: rest)
          ((run_sync env provider (it :: rest) st0).2)).2
        = (runSyncLoop env provider (it :: rest)
            (runSyncLoop env provider (it :: rest) st0 ⟨0, 0, 0, 0⟩ []).2.2
            ⟨0, 0, 0, 0⟩ []).2.2 := rfl
    cases hgh : env.isGithubActions with
    | false =>
      have hcov := runSyncLoop_local_coverage env provider (it :: rest) st0
        ⟨0, 0, 0, 0⟩ [] hgh
      have hnoop := runSyncLoop_local_noop env provider (it :: rest)
        (runSyncLoop env provider (it :: rest) st0 ⟨0, 0, 0, 0⟩ []).2.2
        ⟨0, 0, 0, 0⟩ [] hgh hcov
      constructor
      · unfold totalRows
        rw [hform2, hnoop.1]
        exact rfl
      · intro _
        have hch : (run_sync env provider (it :: rest)
              ((run_sync env provider (it :: rest) st0).2)).1.has_changed
            = decide (0 < (runSyncLoop env provider (it :: rest)
                (runSyncLoop env provider (it :: rest) st0 ⟨0, 0, 0, 0⟩ []).2.2
                ⟨0, 0, 0, 0⟩ []).1.success) := rfl
        rw [hch, hnoop.2]
        rfl
    | true =>
      have hu1 : keyUnique (runSyncLoop env provider (it :: rest) st0
          ⟨0, 0, 0, 0⟩ []).2.2.store :=
        runSyncLoop_keyUnique env provider (it :: rest) st0 ⟨0, 0, 0, 0⟩ [] hu
      have hcov := runSyncLoop_gh_coverage env provider (it :: rest) st0
        ⟨0, 0, 0, 0⟩ [] hgh
      have hlen := runSyncLoop_gh_preserves_length env provider (it :: rest)
        (runSyncLoop env provider (it :: rest) st0 ⟨0, 0, 0, 0⟩ []).2.2
        ⟨0, 0, 0, 0⟩ [] hgh hu1 hcov
      constructor
      · unfold totalRows
        rw [hform2]
        exact hlen
      · intro hcontra
        simp at hcontra

/-- A concrete provider bar for the sync scenarios below. -/
def rbExample : RawBar :=
  ⟨"2024-01-02", 1, 2, 1, 2, 10⟩

/-- C2 counterexample: in the GitHub Actions environment (caching
disabled) a second sync over the same unchanged upstream data re-downloads
the bar, tags it `success` and therefore reports `has_changed = true`,
contradicting the claim that the second run returns `has_changed = false`. -/
theorem sync_rerun_gh_reports_changed :
    (run_sync ⟨true⟩ (fun _ => Except.ok [rbExample]) [("A", "A")]
        ((run_sync ⟨true⟩ (fun _ => Except.ok [rbExample]) [("A", "A")]
          ⟨[], []⟩).2)).1.has_changed = true :=
  rfl

/-- Witness for C2 (amended): a local-mode one-symbol sync run twice from
the empty store. -/
theorem sync_rerun_idempotent_witness :
    totalRows (run_sync ⟨false⟩ (fun _ => Except.ok [rbExample]) [("A", "A")]
          ((run_sync ⟨false⟩ (fun _ => Except.ok [rbExample]) [("A", "A")] ⟨[], []⟩).2)).2
        = totalRows ((run_sync ⟨false⟩ (fun _ => Except.ok [rbExample]) [("A", "A")]
            ⟨[], []⟩).2) ∧
      ((⟨false⟩ : SyncEnv).isGithubActions = false →
        (run_sync ⟨false⟩ (fun _ => Except.ok [rbExample]) [("A", "A")]
          ((run_sync ⟨false⟩ (fun _ => Except.ok [rbExample]) [("A", "A")]
            ⟨[], []⟩).2)).1.has_changed = false) :=
  sync_rerun_idempotent ⟨false⟩ (fun _ => Except.ok [rbExample]) [("A", "A")]
    ⟨[], []⟩ (by decide)

/-- A listing entry: `(symbol-or-code, display name)`. -/
abbrev ListingItem : Type :=
  String × String

/-- The HK listing fetch with its failover (downloader_hk.py lines
58-113): on success the parsed common-stock list is returned and written
to the backup file `hk_stock_list_backup.json`; on any exception the
backup file is loaded if it exists, else the empty list is returned.
The network fetch, header location and classification are abstracted into
the `fetched` argument; the result pairs the returned listing with the
backup file contents after the call. -/
def get_hk_stock_list (fetched : Except Unit (List ListingItem))
    (backupFile : Option (List ListingItem)) :
    List ListingItem × Option (List ListingItem) :=
  match fetched with
  | Except.ok lst => (lst, some lst)
  | Except.error _ =>
    match backupFile with
    | some lst => (lst, some lst)
    | none => ([], none)

/-- The hardcoded minimal fallback listing of downloader_kr.py line 93. -/
def krFallbackList : List ListingItem :=
  [("005930.KS", "SAMSUNG ELECTRONICS"), ("000660.KS", "SK HYNIX")]

/-- The KR listing fetch (downloader_kr.py lines 59-93): on success the
exchange listing is returned; on any exception a hardcoded two-symbol
list is returned — no backup file is consulted. -/
def get_kr_stock_list (fetched : Except Unit (List ListingItem)) : List ListingItem :=
  match fetched with
  | Except.ok lst => lst
  | Except.error _ => krFallbackList

/-- C7 (amended): the HK listing fetch falls back to the backup file when
present and to the empty sequence otherwise, and persists every successful
listing to the backup file; the KR market deviates — on a listing-fetch
failure it returns a hardcoded two-symbol fallback list, not a cached
file's contents and not the empty sequence. -/
theorem fetch_listing_failover (backupFile : Option (List ListingItem))
    (lst : List ListingItem) :
    (get_hk_stock_list (Except.error ()) backupFile).1 = backupFile.getD [] ∧
      get_hk_stock_list (Except.ok lst) backupFile = (lst, some lst) ∧
      get_kr_stock_list (Except.error ()) = krFallbackList := by
  refine ⟨?_, rfl, rfl⟩
  cases backupFile with
  | none => rfl
  | some l => rfl

/-- C7 counterexample: on a KR listing-fetch failure with no backup file
anywhere, the result is the hardcoded two-symbol list, which is not the
empty sequence the claim requires for a market without a backup file. -/
theorem kr_listing_fallback_not_empty :
    get_kr_stock_list (Except.error ()) = krFallbackList ∧ krFallbackList ≠ [] :=
  ⟨rfl, by decide⟩

/-- Configuration and channel outcomes of one notification dispatch.  The
three credential flags say whether `RESEND_API_KEY`, `TELEGRAM_BOT_TOKEN`
and `TELEGRAM_CHAT_ID` are set; `emailSendOk` is whether
`resend.Emails.send` returns without raising, `tgPostOk` whether
`requests.post` to the bot API returns without raising. -/
structure NotifierEnv where
  resendApiKey : Bool
  tgToken : Bool
  tgChatId : Bool
  emailSendOk : Bool
  tgPostOk : Bool
deriving DecidableEq

/-- `StockNotifier.send_telegram` (notifier.py lines 18-32): false when
credentials are missing or the post raises (caught), true otherwise. -/
def send_telegram (env : NotifierEnv) : Bool :=
  if !env.tgToken || !env.tgChatId then false
  else env.tgPostOk

/-- Observable outcome of `send_stock_report_email`: the returned boolean
and whether each channel's delivery call was reached. -/
structure DispatchTrace where
  overall : Bool
  emailAttempted : Bool
  telegramAttempted : Bool
deriving DecidableEq

/-- `StockNotifier.send_stock_report_email` (notifier.py lines 34-134):
without an API key it returns false immediately; otherwise it sends the
email and then the Telegram summary inside one `try` block, returning
true unless an exception is raised.  An email failure raises, so the
method returns false before `send_telegram` is ever called; the Telegram
result is ignored (`send_telegram` swallows its own errors). -/
def send_stock_report_email (env : NotifierEnv) : DispatchTrace :=
  if !env.resendApiKey then ⟨false, false, false⟩
  else if !env.emailSendOk then ⟨false, true, false⟩
  else
    let _tgResult := send_telegram env
    ⟨true, true, true⟩

/-- C6 (amended): the notifier's boolean result is true exactly when the
primary email channel succeeds (API key present and the send does not
raise), and a chat failure never affects the email attempt or the result
— but an email failure aborts the dispatch before the chat channel is
attempted, so only one direction of the claimed failure isolation holds. -/
theorem notifier_dispatch_behavior (a b c e t u : Bool) :
    (send_stock_report_email ⟨a, b, c, e, t⟩).overall = (a && e) ∧
      (send_stock_report_email ⟨a, b, c, e, t⟩).telegramAttempted = (a && e) ∧
      (send_stock_report_email ⟨a, b, c, e, t⟩).emailAttempted
        = (send_stock_report_email ⟨a, b, c, e, u⟩).emailAttempted := by
  cases a <;> cases e <;> simp [send_stock_report_email]

/-- C6 counterexample: with every credential present and a healthy chat
channel, a failing email send returns false without ever attempting the
Telegram channel, refuting the claim that a failure on one channel does
not prevent attempting the other. -/
theorem email_failure_skips_telegram :
    (send_stock_report_email ⟨true, true, true, false, true⟩).telegramAttempted = false ∧
      send_telegram ⟨true, true, true, false, true⟩ = true :=
  ⟨rfl, rfl⟩

/-- One row of an analyzer input file (per-symbol cached day-K CSV),
restricted to the columns the aggregation reads. -/
structure DayBar where
  close : ℚ
  high : ℚ
  low : ℚ
deriving DecidableEq

/-- Python `max(xs)` over a nonempty list (0 on the empty list, unreached
in the source). -/
def listMax : List ℚ → ℚ
  | [] => 0
  | x :: xs => xs.foldl max x

/-- Python `min(xs)` over a nonempty list. -/
def listMin : List ℚ → ℚ
  | [] => 0
  | x :: xs => xs.foldl min x

/-- Python `xs[-days:]`: the last `days` elements. -/
def lastBars (days : ℕ) (l : List ℚ) : List ℚ :=
  l.drop (l.length - days)

/-- The per-window body of the aggregation loop (analyzer.py lines
105-114): if the history has at most `days` bars the three columns are
the sentinel 0.0, otherwise each is the percentage change of the window's
high / latest close / window low against `close[-(days+1)]`. -/
def periodCols (c h l : List ℚ) (days : ℕ) : ℚ × ℚ × ℚ :=
  if c.length ≤ days then (0, 0, 0)
  else
    let prev_c := c.getD (c.length - (days + 1)) 0
    ((listMax (lastBars days h) - prev_c) / prev_c * 100,
     (c.getD (c.length - 1) 0 - prev_c) / prev_c * 100,
     (listMin (lastBars days l) - prev_c) / prev_c * 100)

/-- `periods = [('Week', 5), ('Month', 20), ('Year', 250)]`
(analyzer.py line 91). -/
def analyzer_periods : List (String × ℕ) :=
  [("Week", 5), ("Month", 20), ("Year", 250)]

/-- The aggregated return row of one symbol: the `p_High`, `p_Close`,
`p_Low` triple for each window name. -/
def mkRow (c h l : List ℚ) : List (String × ℚ × ℚ × ℚ) :=
  analyzer_periods.map (fun pd => (pd.1, periodCols c h l pd.2))

/-- The per-file body of the `run_global_analysis` loop (analyzer.py
lines 82-116): files with fewer than 252 bars are skipped (`continue`),
all others produce an aggregated row. -/
def analyze_file (bars : List DayBar) : Option (List (String × ℚ × ℚ × ℚ)) :=
  if bars.length < 252 then none
  else some (mkRow (bars.map DayBar.close) (bars.map DayBar.high) (bars.map DayBar.low))

/-- The aggregation over all data files: one row per file that passes the
252-bar filter. -/
def analysis_rows (files : List (List DayBar)) : List (List (String × ℚ × ℚ × ℚ)) :=
  files.filterMap analyze_file

/-- C8: for each analyzer window (5, 20 or 250 bars), a history of length
at most the window yields the sentinel zero triple for that window's
High/Close/Low columns — the row still carries the window, with value
0.0 rather than a missing or NaN entry. -/
theorem short_history_sentinel_zero (c h l : List ℚ) (p : String) (days : ℕ)
    (hp : (p, days) ∈ analyzer_periods) (hlen : c.length ≤ days) :
    (p, ((0 : ℚ), (0 : ℚ), (0 : ℚ))) ∈ mkRow c h l := by
  have hz : periodCols c h l days = (0, 0, 0) := by
    simp [periodCols, hlen]
  exact List.mem_map.mpr ⟨(p, days), hp, by simp [hz]⟩

/-- Witness for C8: a three-bar history and the five-bar week window. -/
theorem short_history_sentinel_zero_witness :
    ("Week", 5) ∈ analyzer_periods ∧ ([(1 : ℚ), 2, 3].length ≤ 5) ∧
      ("Week", ((0 : ℚ), (0 : ℚ), (0 : ℚ))) ∈ mkRow [(1 : ℚ), 2, 3] [1, 2, 3] [1, 2, 3] :=
  ⟨by decide, by decide,
    short_history_sentinel_zero [1, 2, 3] [1, 2, 3] [1, 2, 3] "Week" 5
      (by decide) (by decide)⟩

/-- C9: a symbol is aggregated exactly when its history has at least 252
bars; a shorter history is skipped entirely and contributes no row to the
aggregation (it is not zero-filled). -/
theorem min_bars_inclusion_filter (bars : List DayBar) (files : List (List DayBar)) :
    (analyze_file bars = none ↔ bars.length < 252) ∧
      (bars.length < 252 → analysis_rows (bars :: files) = analysis_rows files) := by
  constructor
  · constructor
    · intro h
      by_contra hlt
      simp [analyze_file, hlt] at h
    · intro h
      simp [analyze_file, h]
  · intro h
    simp [analysis_rows, List.filterMap_cons, analyze_file, h]

/-- Witness for C9: a 251-bar history is skipped and contributes nothing. -/
theorem min_bars_inclusion_filter_witness :
    analyze_file (List.replicate 251 ⟨1, 1, 1⟩) = none ∧
      analysis_rows [List.replicate 251 ⟨1, 1, 1⟩] = [] := by
  have hlen : (List.replicate (251 : ℕ) (⟨1, 1, 1⟩ : DayBar)).length < 252 := by
    rw [List.length_replicate]
    omega
  constructor
  · exact (min_bars_inclusion_filter (List.replicate 251 ⟨1, 1, 1⟩) []).1.mpr hlen
  · have h2 := (min_bars_inclusion_filter (List.replicate 251 ⟨1, 1, 1⟩) []).2 hlen
    rw [h2]
    rfl

/-- Binning constants of analyzer.py lines 16-17. -/
def XMIN : ℤ := -100

def XMAX : ℤ := 100

/-- `BIN = 10.0` — the 10-point bucket width. -/
def binWidth : ℤ := 10

/-- The bin edges `run_global_analysis` actually passes to
`build_company_list` (analyzer.py line 126): `np.arange(-100, 110, 10)`,
i.e. the 21 integers -100, -90, ..., 100 — the stop value 110 is
excluded by `arange`. -/
def binsPassed : List ℤ :=
  (List.range 21).map (fun i => -100 + 10 * (i : ℤ))

/-- The module-level `BINS` of analyzer.py line 18:
`np.append(np.arange(-100, 100 + 1e-6, 10), 110)` — the same edges plus a
final 110 edge for the overflow bucket.  This constant is never passed to
`build_company_list`; it documents the overflow bucket the `up == XMAX +
BIN` branch below was written for. -/
def BINS : List ℤ :=
  binsPassed ++ [110]

/-- A row of the textual bucket report. -/
inductive BucketLabel where
  | range (lo up : ℤ)
  | overflow
  | underflow
deriving DecidableEq

structure ReportRow where
  label : BucketLabel
  count : ℕ
  members : List ℕ
deriving DecidableEq

/-- Consecutive `(edges[i], edges[i+1])` pairs of the loop
`for i in range(len(edges)-1)`. -/
def adjacentPairs : List ℤ → List (ℤ × ℤ)
  | a :: b :: rest => (a, b) :: adjacentPairs (b :: rest)
  | _ => []

/-- The label of a bucket: `">100%"` when `up == XMAX + BIN`, else
`f"{int(lo)}%~{int(up)}%"` (analyzer.py lines 31-35). -/
def bucketLabel (lo up : ℤ) : BucketLabel :=
  if up == XMAX + binWidth then BucketLabel.overflow else BucketLabel.range lo up

/-- The membership mask of a bucket over the RAW (unclipped) values:
`arr_pct >= lo` for the overflow bucket, `(arr_pct >= lo) & (arr_pct <
up)` otherwise (analyzer.py lines 33 and 36). -/
def bucketMask (lo up : ℤ) (v : ℚ) : Bool :=
  if up == XMAX + binWidth then decide ((lo : ℚ) ≤ v)
  else decide ((lo : ℚ) ≤ v) && decide (v < (up : ℚ))

/-- `np.where(mask)[0]` — the indices of `arr` satisfying a mask. -/
def maskIndices (arr : List ℚ) (p : ℚ → Bool) : List ℕ :=
  (List.range arr.length).filter (fun j => p (arr.getD j 0))

/-- `build_company_list` (analyzer.py lines 21-65) reduced to its bucket
structure: one row per adjacent edge pair, skipped when empty unless it
is the first (`lo = XMIN`) or an overflow (`up > XMAX`) bucket, with the
`"<-100%"` underflow row inserted before the bucket rows when non-empty.
The clipped `np.histogram` counts of line 26 are computed in the source
but never used — only its `edges` (equal to `bins`) are — so each row's
count and member list come from the raw-value masks. -/
def build_company_list (arr : List ℚ) (bins : List ℤ) : List ReportRow :=
  let rowsMain := (adjacentPairs bins).filterMap (fun pr =>
    let idxs := maskIndices arr (bucketMask pr.1 pr.2)
    if idxs.length == 0 && decide (XMIN < pr.1) && decide (pr.2 ≤ XMAX) then none
    else some ⟨bucketLabel pr.1 pr.2, idxs.length, idxs⟩)
  let ltIdxs := maskIndices arr (fun v => decide (v < (XMIN : ℚ)))
  if ltIdxs.length == 0 then rowsMain
  else ⟨BucketLabel.underflow, ltIdxs.length, ltIdxs⟩ :: rowsMain

/-- Sum of the reported bucket counts of a textual breakdown. -/
def reportTotal (rows : List ReportRow) : ℕ :=
  (rows.map ReportRow.count).sum

theorem mem_maskIndices {arr : List ℚ} {p : ℚ → Bool} {j : ℕ} :
    j ∈ maskIndices arr p ↔ j < arr.length ∧ p (arr.getD j 0) = true := by
  simp [maskIndices, List.mem_filter, List.mem_range]

theorem mem_build_company_list {arr : List ℚ} {bins : List ℤ} {row : ReportRow}
    (hrow : row ∈ build_company_list arr bins) :
    (row = ⟨BucketLabel.underflow,
        (maskIndices arr (fun v => decide (v < (XMIN : ℚ)))).length,
        maskIndices arr (fun v => decide (v < (XMIN : ℚ)))⟩) ∨
      ∃ pr ∈ adjacentPairs bins,
        row = ⟨bucketLabel pr.1 pr.2,
          (maskIndices arr (bucketMask pr.1 pr.2)).length,
          maskIndices arr (bucketMask pr.1 pr.2)⟩ := by
  have hmain : ∀ r, r ∈ (adjacentPairs bins).filterMap (fun pr =>
      let idxs := maskIndices arr (bucketMask pr.1 pr.2)
      if idxs.length == 0 && decide (XMIN < pr.1) && decide (pr.2 ≤ XMAX) then none
      else some (ReportRow.mk (bucketLabel pr.1 pr.2) idxs.length idxs)) →
      ∃ pr ∈ adjacentPairs bins,
        r = ⟨bucketLabel pr.1 pr.2,
          (maskIndices arr (bucketMask pr.1 pr.2)).length,
          maskIndices arr (bucketMask pr.1 pr.2)⟩ := by
    intro r hr
    rcases List.mem_filterMap.mp hr with ⟨pr, hpr, hf⟩
    refine ⟨pr, hpr, ?_⟩
    by_cases hskip : ((maskIndices arr (bucketMask pr.1 pr.2)).length == 0
        && decide (XMIN < pr.1) && decide (pr.2 ≤ XMAX)) = true
    · rw [if_pos hskip] at hf
      cases hf
    · rw [if_neg hskip] at hf
      exact (Option.some.inj hf).symm
  unfold build_company_list at hrow
  by_cases hlt : ((maskIndices arr (fun v => decide (v < (XMIN : ℚ)))).length == 0) = true
  · rw [if_pos hlt] at hrow
    exact Or.inr (hmain row hrow)
  · rw [if_neg hlt] at hrow
    rcases List.mem_cons.mp hrow with rfl | hrow2
    · exact Or.inl rfl
    · exact Or.inr (hmain row hrow2)

theorem binsPassed_pairs_bounds :
    ∀ pr ∈ adjacentPairs binsPassed,
      XMIN ≤ pr.1 ∧ pr.2 ≤ XMAX ∧ (pr.2 == XMAX + binWidth) = false := by
  decide

/-- C3 (amended): the textual breakdown evaluates bucket membership on
the RAW values (the clipped histogram of line 26 is discarded) against
half-open `[lo, up)` ranges from the edges actually passed
(`np.arange(-100, 110, 10)`, last edge 100, so the `>100%` branch keyed
to a 110 edge never fires): a value `≥ 100` — exactly 100 or 100.01
alike — appears in no row at all and no `>100%` row exists, while a
value strictly below -100 appears exactly in the separate `<-100%` row
prepended to the report. -/
theorem histogram_edge_values (arr : List ℚ) (j : ℕ) (hj : j < arr.length) :
    ((100 : ℚ) ≤ arr.getD j 0 →
      ∀ row ∈ build_company_list arr binsPassed, j ∉ row.members) ∧
      (∀ row ∈ build_company_list arr binsPassed, row.label ≠ BucketLabel.overflow) ∧
      (arr.getD j 0 < -100 →
        (∃ row ∈ build_company_list arr binsPassed,
          row.label = BucketLabel.underflow ∧ j ∈ row.members) ∧
        (∀ row ∈ build_company_list arr binsPassed,
          row.label ≠ BucketLabel.underflow → j ∉ row.members)) := by
  have hbounds := binsPassed_pairs_bounds
  have hxmin : ((XMIN : ℤ) : ℚ) = -100 := by norm_num [XMIN]
  have hxmax : ((XMAX : ℤ) : ℚ) = 100 := by norm_num [XMAX]
  refine ⟨?_, ?_, ?_⟩
  · intro hge row hrow hjmem
    rcases mem_build_company_list hrow with hrw | ⟨pr, hpr, hrw⟩
    · have hjm2 : j ∈ maskIndices arr (fun v => decide (v < (XMIN : ℚ))) := by
        rw [hrw] at hjmem
        exact hjmem
      have hdec := (mem_maskIndices.mp hjm2).2
      have hlt : arr.getD j 0 < ((XMIN : ℤ) : ℚ) := of_decide_eq_true hdec
      rw [hxmin] at hlt
      linarith
    · have hjm2 : j ∈ maskIndices arr (bucketMask pr.1 pr.2) := by
        rw [hrw] at hjmem
        exact hjmem
      have hmask := (mem_maskIndices.mp hjm2).2
      have hb := hbounds pr hpr
      unfold bucketMask at hmask
      rw [if_neg (by rw [hb.2.2]; simp)] at hmask
      simp only [Bool.and_eq_true, decide_eq_true_eq] at hmask
      have hup : (pr.2 : ℚ) ≤ ((XMAX : ℤ) : ℚ) := by exact_mod_cast hb.2.1
      rw [hxmax] at hup
      linarith [hmask.2]
  · intro row hrow
    rcases mem_build_company_list hrow with hrw | ⟨pr, hpr, hrw⟩
    · rw [hrw]
      simp
    · rw [hrw]
      have hb := hbounds pr hpr
      simp [bucketLabel, hb.2.2]
  · intro hlt
    have hjm : j ∈ maskIndices arr (fun v => decide (v < (XMIN : ℚ))) := by
      apply mem_maskIndices.mpr
      refine ⟨hj, ?_⟩
      apply decide_eq_true
      rw [hxmin]
      exact hlt
    have hpos : 0 < (maskIndices arr (fun v => decide (v < (XMIN : ℚ)))).length :=
      List.length_pos.mpr (List.ne_nil_of_mem hjm)
    have hnonzero : ((maskIndices arr (fun v => decide (v < (XMIN : ℚ)))).length == 0)
        = false :=
      beq_eq_false_iff_ne.mpr (Nat.pos_iff_ne_zero.mp hpos)
    constructor
    · refine ⟨⟨BucketLabel.underflow,
        (maskIndices arr (fun v => decide (v < (XMIN : ℚ)))).length,
        maskIndices arr (fun v => decide (v < (XMIN : ℚ)))⟩, ?_, rfl, hjm⟩
      unfold build_company_list
      rw [if_neg (by rw [hnonzero]; simp)]
      exact List.mem_cons_self _ _
    · intro row hrow hlab hjmem
      rcases mem_build_company_list hrow with hrw | ⟨pr, hpr, hrw⟩
      · rw [hrw] at hlab
        simp at hlab
      · have hjm2 : j ∈ maskIndices arr (bucketMask pr.1 pr.2) := by
          rw [hrw] at hjmem
          exact hjmem
        have hmask := (mem_maskIndices.mp hjm2).2
        have hb := hbounds pr hpr
        unfold bucketMask at hmask
        rw [if_neg (by rw [hb.2.2]; simp)] at hmask
        simp only [Bool.and_eq_true, decide_eq_true_eq] at hmask
        have hlo : ((XMIN : ℤ) : ℚ) ≤ (pr.1 : ℚ) := by exact_mod_cast hb.1
        rw [hxmin] at hlo
        linarith [hmask.1]

/-- Witness for C3 (amended): the values 150 and -150 — the first is in
no row of the breakdown, no `>100%` row exists, and the second sits in
the `<-100%` row. -/
theorem histogram_edge_values_witness :
    (∀ row ∈ build_company_list [(150 : ℚ), -150] binsPassed, (0 : ℕ) ∉ row.members) ∧
      (∀ row ∈ build_company_list [(150 : ℚ), -150] binsPassed,
        row.label ≠ BucketLabel.overflow) ∧
      (∃ row ∈ build_company_list [(150 : ℚ), -150] binsPassed,
        row.label = BucketLabel.underflow ∧ (1 : ℕ) ∈ row.members) :=
  ⟨(histogram_edge_values [150, -150] 0 (by decide)).1 (by norm_num),
    (histogram_edge_values [150, -150] 0 (by decide)).2.1,
    ((histogram_edge_values [150, -150] 1 (by decide)).2.2 (by norm_num)).1⟩

/-- C3 counterexample: with the bin edges the analyzer actually passes,
the report for the single value 100 (respectively 100.01) consists of the
always-shown empty first bucket only — the value of exactly 100 is NOT in
the top normal bucket, and 100.01 is NOT reported under any `>100%` row
(none exists). -/
theorem value_100_in_no_bucket :
    build_company_list [(100 : ℚ)] binsPassed
        = [⟨BucketLabel.range (-100) (-90), 0, []⟩] ∧
      build_company_list [mkRat 10001 100] binsPassed
        = [⟨BucketLabel.range (-100) (-90), 0, []⟩] := by
  constructor
  · decide
  · decide

/-- C4: for the two non-null aggregated values 50 and 100 the textual
breakdown's bucket counts sum to 1, not 2 — with the bin edges actually
passed there is no `>100%` bucket and the value 100 is counted nowhere.
With the module-level `BINS` (the unused 110-edge variant the overflow
branch was written for) the counts do sum to the number of values. -/
theorem histogram_counts_drop_top_values :
    reportTotal (build_company_list [(50 : ℚ), 100] binsPassed) = 1 ∧
      reportTotal (build_company_list [(50 : ℚ), 100] BINS) = 2 := by
  constructor
  · decide
  · decide
